import Mathlib

/-!
Verification of the word-cloud text-understanding pipeline.

Shallow embedding, translated from the TypeScript sources:
  - `src/lib/wordCloudProcessor.ts` (spam filter `isSpam`, current relaxed build),
  - `src/lib/autoMinOccurrence.ts` (adaptive threshold calculator),
  - `src/lib/semanticGrouping.ts` (clustering `clusterByKeyPhrase`, tiering `assignTiers`).

Strings are modelled as `List Char`.  JavaScript regular-expression tests are
translated into executable boolean functions over character lists; JS `Map`s
are modelled as lookup functions or ordered lists (JS `Map` preserves insertion
order and has unique keys).  JS floating-point arithmetic on ratios is modelled
exactly over `ℚ`; all quantities the code assigns to its `threshold` variable
are integer-valued, so the threshold is carried in `ℤ`.
-/

set_option maxRecDepth 8000

namespace WordCloud

abbrev Str := List Char

/-- Characters removed by JS `String.prototype.trim` and matched by the regex
class `\s`: WhiteSpace plus LineTerminator code points (space, tab, LF, CR,
VT, FF, NBSP, Ogham space, the U+2000–U+200A spaces, LS, PS, NNBSP, MMSP,
ideographic space, ZWNBSP). -/
def jsWs (c : Char) : Bool :=
  c.toNat == 0x20 || c.toNat == 0x09 || c.toNat == 0x0a || c.toNat == 0x0d ||
  c.toNat == 0x0b || c.toNat == 0x0c || c.toNat == 0xa0 || c.toNat == 0x1680 ||
  (decide (0x2000 ≤ c.toNat) && decide (c.toNat ≤ 0x200a)) ||
  c.toNat == 0x2028 || c.toNat == 0x2029 || c.toNat == 0x202f ||
  c.toNat == 0x205f || c.toNat == 0x3000 || c.toNat == 0xfeff

/-- Characters matched by the JS regex metacharacter `.` (all but the line
terminators LF, CR, LS, PS). -/
def isDotChar (c : Char) : Bool :=
  !(c.toNat == 0x0a || c.toNat == 0x0d || c.toNat == 0x2028 || c.toNat == 0x2029)

/-- JS `String.prototype.toLowerCase`, restricted to the alphabets this
code base manipulates: ASCII letters are case-folded; CJK code points (and all
other characters appearing in the pipeline's character classes) are caseless
and map to themselves. -/
def toLowerChar (c : Char) : Char :=
  if 65 ≤ c.toNat && c.toNat ≤ 90 then Char.ofNat (c.toNat + 32) else c

/-- JS `String.prototype.trim`: drop `jsWs` characters from both ends. -/
def trimJS (s : Str) : Str :=
  ((s.dropWhile jsWs).reverse.dropWhile jsWs).reverse

/-- The character class `[一-鿿぀-ゟ゠-ヿ]` used by the
spam filter's CJK early exit. -/
def isCJK (c : Char) : Bool :=
  (decide (0x4e00 ≤ c.toNat) && decide (c.toNat ≤ 0x9fff)) ||
  (decide (0x3040 ≤ c.toNat) && decide (c.toNat ≤ 0x309f)) ||
  (decide (0x30a0 ≤ c.toNat) && decide (c.toNat ≤ 0x30ff))

/-- The narrower class `[一-鿿]` used by the length cap and by the
spam-ratio heuristic. -/
def isCJKUnified (c : Char) : Bool :=
  decide (0x4e00 ≤ c.toNat) && decide (c.toNat ≤ 0x9fff)

/-- The class `[a-z]` under the `i` flag, i.e. any ASCII letter
(code points 97–122 and 65–90). -/
def isLatinLetter (c : Char) : Bool :=
  (decide (97 ≤ c.toNat) && decide (c.toNat ≤ 122)) ||
  (decide (65 ≤ c.toNat) && decide (c.toNat ≤ 90))

/-- The ASCII range (code points 0–127).  On ASCII strings the embedding is
exact: JS `toLowerCase` coincides with `toLowerChar` (no Unicode special
casing such as U+0130), and one character is one UTF-16 code unit, so the
code-point regex model matches the JS code-unit regexes. -/
def isAsciiChar (c : Char) : Bool :=
  decide (c.toNat ≤ 127)

/-- The class `[aeiou]` under the `i` flag. -/
def isVowelLetter (c : Char) : Bool :=
  c == 'a' || c == 'e' || c == 'i' || c == 'o' || c == 'u' ||
  c == 'A' || c == 'E' || c == 'I' || c == 'O' || c == 'U'

/-- Test for the regex `(.)\1{m-1,}` (unanchored): some position starts a run
of at least `m` identical characters whose character is matched by `.`.
`isSpam` uses `m = 5` (`(.)\1{4,}`), the spam-ratio heuristic `m = 4`. -/
def hasRunGe (m : ℕ) : Str → Bool
  | [] => false
  | c :: rest =>
    (isDotChar c && decide (m ≤ (rest.takeWhile (fun d => d == c)).length + 1)) ||
    hasRunGe m rest

/-- `b` concatenated `n` times. -/
def repBlock (n : ℕ) (b : Str) : Str :=
  match n with
  | 0 => []
  | n + 1 => b ++ repBlock n b

/-- Test for the anchored regex `^([a-z]{k})\1{minReps-1,}$/i`: the whole
string is a block of `k` ASCII letters repeated at least `minReps` times. -/
def matchRep (k minReps : ℕ) (s : Str) : Bool :=
  decide (1 ≤ k) && decide (k * minReps ≤ s.length) && s.length % k == 0 &&
  (s.take k).all isLatinLetter && s == repBlock (s.length / k) (s.take k)

/-- JS `String.prototype.includes`: `pat` occurs as a contiguous substring. -/
def containsSub (pat : Str) : Str → Bool
  | [] => pat == []
  | c :: rest => pat.isPrefixOf (c :: rest) || containsSub pat rest

/-- The `obviousKeyboardMashing` substring list of the current spam filter. -/
def obviousKeyboardMashing : List Str :=
  [ ("qwertyuiop").toList, ("asdfghjkl").toList, ("zxcvbnm").toList,
    ("qwerty").toList, ("asdfgh").toList, ("zxcvbn").toList,
    ("poiuytrewq").toList, ("lkjhgfdsa").toList, ("mnbvcxz").toList ]

/-- `isSpam` from `wordCloudProcessor.ts` (current build, "minimal spam
detection").  Rule order as in the source: empty input, CJK early exit,
`(.)\1{4,}`, `^([a-z]{2})\1{3,}$`, `^([a-z]{2,3})\1{4,}$`, keyboard-row
substrings, then the 30-character single-word cap.  The regex tests are
embedded over code points while JS regexes without the `u` flag run over
UTF-16 code units, and `toLowerChar` folds only ASCII; the universally
quantified theorems below therefore confine themselves to ASCII inputs
(`isLatinLetter` / `isAsciiChar`), where both models coincide, and the
CJK-safety argument relies only on facts (caselessness, one code unit per
BMP character) that hold in JS as well. -/
def isSpam (text : Str) : Bool :=
  if text = [] ∨ (trimJS text).length = 0 then true
  else
    let cleaned := (trimJS text).map toLowerChar
    if cleaned.any isCJK then false
    else if hasRunGe 5 cleaned then true
    else if matchRep 2 4 cleaned then true
    else if matchRep 2 5 cleaned || matchRep 3 5 cleaned then true
    else if obviousKeyboardMashing.any (fun seq => containsSub seq cleaned) then true
    else if decide (30 < cleaned.length) &&
        !(cleaned.any (fun c => jsWs c || isCJKUnified c)) then true
    else false

/-- Detected language tag (`multilingualNLP.ts` / spec §2). -/
inductive Language where
  | en | zh | ms | mixed
deriving DecidableEq, Repr

/-- `Entry` from `types/index.ts`, restricted to the fields the pipeline
reads (`text`, `normalized_text`, `color`); the identity and metadata columns
(`id`, `session_id`, `participant_name`, `created_at`) are never consulted by
any embedded function. -/
structure Entry where
  text : Str
  normalized_text : Str
  color : Str
deriving DecidableEq, Repr

/-- The key expression `entry.normalized_text || entry.text.toLowerCase()`
used by `buildCountMap`, `getFrequencyDistribution` and the color lookup; in
JS the fallback fires exactly when `normalized_text` is the empty string. -/
def entryKey (e : Entry) : Str :=
  if e.normalized_text == [] then e.text.map toLowerChar else e.normalized_text

/-- `ProcessedToken` produced by `processMultilingual`. -/
structure ProcessedToken where
  original : Str
  normalized : Str
  keyPhrase : Str
  language : Language
deriving DecidableEq, Repr

/-- Tier for visual sizing (`semanticGrouping.ts`). -/
inductive Tier where
  | S | A | B | C
deriving DecidableEq, Repr

/-- `SemanticVariant` from `semanticGrouping.ts`. -/
structure SemanticVariant where
  text : Str
  normalized : Str
  count : ℕ
  language : Language
deriving DecidableEq, Repr

/-- `SemanticGroup` from `semanticGrouping.ts`.  `languages` and `colors`
model JS `Set` / deduplicated array in insertion order.  `semanticScore` is
floating point (`log * sqrt`) in the source; it is not read by any verified
property and is carried as an opaque rational initialized to 0. -/
structure SemanticGroup where
  canonical : Str
  displayText : Str
  keyPhrase : Str
  variants : List SemanticVariant
  totalCount : ℕ
  tier : Tier
  semanticScore : ℚ
  languages : List Language
  colors : List Str
deriving DecidableEq, Repr

/-- Lower-case a string (JS `toLowerCase`). -/
def lowerStr (s : Str) : Str := s.map toLowerChar

/-- `buildCountMap` from `semanticGrouping.ts`: a JS `Map` built by iterating
the entries and incrementing per key, modelled by its lookup function
(`0` = key absent; a present key always holds a positive count). -/
def buildCountMap (entries : List Entry) : Str → ℕ :=
  entries.foldl (fun m e => fun k => if k == entryKey e then m k + 1 else m k)
    (fun _ => 0)

/-- The `textToEntry` map of `clusterByKeyPhrase`: first entry per key. -/
def textToEntry (entries : List Entry) (k : Str) : Option Entry :=
  entries.find? (fun e => entryKey e == k)

/-- Fold one token's variant record into a group's variant list: the first
variant with the same `normalized` accumulates the count, otherwise a new
variant is appended (JS `variants.find` + push). -/
def addVariant (t : ProcessedToken) (nk : Str) (count : ℕ) :
    List SemanticVariant → List SemanticVariant
  | [] => [{ text := t.original, normalized := nk, count := count, language := t.language }]
  | v :: rest =>
    if v.normalized == nk then { v with count := v.count + count } :: rest
    else v :: addVariant t nk count rest

/-- The count resolution `countMap.get(normalizedKey) || 1` of
`clusterByKeyPhrase` (`0` models an absent key: the map never stores 0). -/
def tokenCount (cm : Str → ℕ) (t : ProcessedToken) : ℕ :=
  if cm (lowerStr t.normalized) == 0 then 1 else cm (lowerStr t.normalized)

/-- The per-token mutation block of `clusterByKeyPhrase`: resolve the count
(`countMap.get(normalizedKey) || 1`), fold the variant in, bump `totalCount`,
record language and (via `textToEntry`) color. -/
def applyToken (cm : Str → ℕ) (t2e : Str → Option Entry) (t : ProcessedToken)
    (g : SemanticGroup) : SemanticGroup :=
  let normalizedKey := lowerStr t.normalized
  let count := tokenCount cm t
  let variants := addVariant t normalizedKey count g.variants
  let languages :=
    if g.languages.contains t.language then g.languages else g.languages ++ [t.language]
  let colors :=
    match t2e normalizedKey with
    | some e =>
      if e.color ≠ [] ∧ ¬ g.colors.contains e.color then g.colors ++ [e.color]
      else g.colors
    | none => g.colors
  { g with variants := variants, totalCount := g.totalCount + count,
           languages := languages, colors := colors }

/-- The group freshly inserted on first sight of a cluster key. -/
def newGroup (t : ProcessedToken) : SemanticGroup :=
  { canonical := lowerStr t.keyPhrase, displayText := t.keyPhrase,
    keyPhrase := t.keyPhrase, variants := [], totalCount := 0, tier := .C,
    semanticScore := 0, languages := [], colors := [] }

/-- Process one token against the ordered group list (JS `Map` with unique
`canonical` keys in insertion order): update the group holding the token's
cluster key, or append a fresh one. -/
def addTokenToGroups (cm : Str → ℕ) (t2e : Str → Option Entry)
    (t : ProcessedToken) : List SemanticGroup → List SemanticGroup
  | [] => [applyToken cm t2e t (newGroup t)]
  | g :: gs =>
    if g.canonical == lowerStr t.keyPhrase then applyToken cm t2e t g :: gs
    else g :: addTokenToGroups cm t2e t gs

/-- `clusterByKeyPhrase` from `semanticGrouping.ts`, returning the map's
values in insertion order. -/
def clusterByKeyPhrase (tokens : List ProcessedToken) (cm : Str → ℕ)
    (entries : List Entry) : List SemanticGroup :=
  tokens.foldl (fun gs t => addTokenToGroups cm (textToEntry entries) t gs) []

/-- Insertion step for the JS sort by `totalCount` descending.  Under the
`foldr` below the last-inserted group is the originally-first one, and the
`≤` guard places it ahead of the groups of equal count inserted before it,
reproducing the stable tie order of the JS engine's sort. -/
def insertGroupDesc (g : SemanticGroup) : List SemanticGroup → List SemanticGroup
  | [] => [g]
  | h :: t => if h.totalCount ≤ g.totalCount then g :: h :: t else h :: insertGroupDesc g t

/-- Sort groups by `totalCount` descending (JS `sort((a, b) =>
b.totalCount - a.totalCount)`, a stable sort). -/
def sortGroupsDesc (groups : List SemanticGroup) : List SemanticGroup :=
  groups.foldr insertGroupDesc []

/-- The tier chosen by `assignTiers` for the group at position `index` whose
running cumulative percentage (after adding its own share) is `cum2`.  In JS,
when the grand total is `0` every percentage is `NaN` and each `≤` comparison
is false; the `0 < total` guard makes that explicit. -/
def tierFor (total : ℚ) (index : ℕ) (cum2 : ℚ) : Tier :=
  if index < 5 ∧ 0 < total ∧ cum2 ≤ 65 then .S
  else if index < 20 ∧ 0 < total ∧ cum2 ≤ 90 then .A
  else if index < 50 then .B
  else .C

/-- The walk of `assignTiers`: running index and cumulative percentage. -/
def assignTiersAux (total : ℚ) : List SemanticGroup → ℕ → ℚ → List SemanticGroup
  | [], _, _ => []
  | g :: rest, index, cum =>
    { g with tier := tierFor total index (cum + ((g.totalCount : ℚ) / total) * 100) } ::
      assignTiersAux total rest (index + 1) (cum + ((g.totalCount : ℚ) / total) * 100)

/-- `assignTiers` from `semanticGrouping.ts`: sort by count descending, then
assign S/A/B/C by rank and cumulative share. -/
def assignTiers (groups : List SemanticGroup) : List SemanticGroup :=
  let sorted := sortGroupsDesc groups
  let total : ℕ := (sorted.map (fun g => g.totalCount)).sum
  assignTiersAux (total : ℚ) sorted 0 0

/-- First-occurrence deduplication of a key list, mirroring the key set of a
JS `Map` built by insertion (`seen` accumulates keys already emitted). -/
def firstDedupAux (seen : List Str) : List Str → List Str
  | [] => []
  | k :: ks =>
    if seen.contains k then firstDedupAux seen ks
    else k :: firstDedupAux (k :: seen) ks

/-- Distinct keys of a list, in first-occurrence order. -/
def firstDedup (ks : List Str) : List Str := firstDedupAux [] ks

/-- Insertion step for JS `sort((a, b) => b - a)` on counts. -/
def insertNatDesc (x : ℕ) : List ℕ → List ℕ
  | [] => [x]
  | y :: ys => if y < x then x :: y :: ys else y :: insertNatDesc x ys

/-- Sort counts descending. -/
def sortNatDesc (l : List ℕ) : List ℕ := l.foldr insertNatDesc []

/-- Insertion step for JS `sort((a, b) => a - b)` on counts. -/
def insertNatAsc (x : ℕ) : List ℕ → List ℕ
  | [] => [x]
  | y :: ys => if x < y then x :: y :: ys else y :: insertNatAsc x ys

/-- Sort counts ascending. -/
def sortNatAsc (l : List ℕ) : List ℕ := l.foldr insertNatAsc []

/-- `getFrequencyDistribution` from `autoMinOccurrence.ts`: per-key submission
counts (keys in insertion order), sorted descending. -/
def getFrequencyDistribution (entries : List Entry) : List ℕ :=
  let keys := entries.map entryKey
  sortNatDesc ((firstDedup keys).map (fun k => keys.count k))

/-- `calculateMedian` from `autoMinOccurrence.ts` (average of the two middle
elements for even length, hence rational-valued). -/
def calculateMedian (values : List ℕ) : ℚ :=
  if values = [] then 0
  else
    let sorted := sortNatAsc values
    let mid := values.length / 2
    if values.length % 2 == 0 then
      (((sorted.getD (mid - 1) 0 : ℕ) : ℚ) + ((sorted.getD mid 0 : ℕ) : ℚ)) / 2
    else ((sorted.getD mid 0 : ℕ) : ℚ)

/-- The `isLikelySpam` heuristic inside `estimateSpamRatio`: too-short
non-CJK, `(.)\1{3,}`, `^([a-z]{1,2})\1{2,}$`, or vowel-free Latin word. -/
def isLikelySpam (text : Str) : Bool :=
  let lower := trimJS (text.map toLowerChar)
  if decide (lower.length < 2) && !(lower.any isCJKUnified) then true
  else if hasRunGe 4 lower then true
  else if matchRep 1 3 lower || matchRep 2 3 lower then true
  else if (decide (3 ≤ lower.length) && lower.all isLatinLetter) &&
      !(lower.any isVowelLetter) then true
  else false

/-- `estimateSpamRatio` from `autoMinOccurrence.ts`. -/
def estimateSpamRatio (entries : List Entry) : ℚ :=
  ((entries.countP (fun e => isLikelySpam e.text)) : ℚ) /
    ((max entries.length 1 : ℕ) : ℚ)

/-- `countWordsAboveThreshold` from `autoMinOccurrence.ts`. -/
def countWordsAboveThreshold (frequencies : List ℕ) (threshold : ℤ) : ℕ :=
  (frequencies.filter (fun f => threshold ≤ (f : ℤ))).length

/-- `DataAnalysis` from `autoMinOccurrence.ts`. -/
structure DataAnalysis where
  totalEntries : ℕ
  uniqueWords : ℕ
  diversity : ℚ
  maxFrequency : ℕ
  avgFrequency : ℚ
  medianFrequency : ℚ
  spamRatio : ℚ
  dominanceRatio : ℚ
deriving DecidableEq, Repr

/-- `analyzeData` from `autoMinOccurrence.ts`. -/
def analyzeData (entries : List Entry) : DataAnalysis :=
  if entries = [] then
    { totalEntries := 0, uniqueWords := 0, diversity := 0, maxFrequency := 0,
      avgFrequency := 0, medianFrequency := 0, spamRatio := 0, dominanceRatio := 0 }
  else
    let frequencies := getFrequencyDistribution entries
    let uniqueWords := frequencies.length
    let totalEntries := entries.length
    { totalEntries := totalEntries, uniqueWords := uniqueWords,
      diversity := (uniqueWords : ℚ) / (totalEntries : ℚ),
      maxFrequency := frequencies.headD 0,
      avgFrequency := (totalEntries : ℚ) / (uniqueWords : ℚ),
      medianFrequency := calculateMedian frequencies,
      spamRatio := estimateSpamRatio entries,
      dominanceRatio := ((frequencies.headD 0 : ℕ) : ℚ) / (totalEntries : ℚ) }

/-- `spamSensitivity` option values. -/
inductive SpamSensitivity where
  | low | medium | high
deriving DecidableEq, Repr

/-- `AutoMinOccurrenceOptions` with its defaults already merged in (JS
destructuring defaults `preferredWordCount = 50`, `spamSensitivity =
"medium"`). -/
structure AutoOpts where
  preferredWordCount : ℚ := 50
  spamSensitivity : SpamSensitivity := .medium
deriving DecidableEq, Repr

/-- The `spamAdjustments` table of `calculateAutoMinOccurrence`, translated
with the source's ternary grouping:
`high: spamRatio > 0.1 ? 2 : spamRatio > 0.25 ? 3 : 0`. -/
def spamAdjustments (sens : SpamSensitivity) (spamRatio : ℚ) : ℤ :=
  match sens with
  | .low => 0
  | .medium => if spamRatio > 0.15 then 1 else 0
  | .high => if spamRatio > 0.1 then 2 else if spamRatio > 0.25 then 3 else 0

/-- CASE 3 / CASE 4 of `calculateAutoMinOccurrence`: the base threshold
assigned for low (< 0.3) or medium diversity (both cases overwrite the
earlier spam baseline, which is why the final safety net exists). -/
def autoBase (a : DataAnalysis) : ℤ :=
  if a.diversity < 0.3 then
    if a.dominanceRatio > 0.25 then ⌈(a.maxFrequency : ℚ) * 0.2⌉
    else max 2 ⌈a.medianFrequency⌉
  else ⌈a.medianFrequency⌉

/-- ADJUSTMENT 1 of `calculateAutoMinOccurrence`: scale with dataset size. -/
def autoSizeAdjust (totalEntries : ℕ) (threshold : ℤ) : ℤ :=
  if totalEntries > 500 then threshold + 2
  else if totalEntries > 200 then threshold + 1
  else if totalEntries < 50 then max 1 (threshold - 1)
  else threshold

/-- ADJUSTMENT 3 of `calculateAutoMinOccurrence`: iterative refinement of the
threshold toward the preferred visible word count. -/
def autoRefine (frequencies : List ℕ) (preferredWordCount : ℚ) (threshold : ℤ) : ℤ :=
  let estimatedVisible := countWordsAboveThreshold frequencies threshold
  if (estimatedVisible : ℚ) > preferredWordCount * 1.5 then
    let threshold2 := threshold + 1
    let estimatedVisible2 := countWordsAboveThreshold frequencies threshold2
    if (estimatedVisible2 : ℚ) > preferredWordCount * 1.8 then threshold2 + 1
    else threshold2
  else if (estimatedVisible : ℚ) < preferredWordCount * 0.5 ∧ threshold > 1 then
    max 1 (threshold - 1)
  else threshold

/-- Final bounds check plus the spam safety net of
`calculateAutoMinOccurrence`: clamp to [1,10], then never return 1 when
significant spam is present. -/
def autoFinalize (spamRatio : ℚ) (threshold : ℤ) : ℤ :=
  let clamped := max 1 (min threshold 10)
  if clamped = 1 ∧ spamRatio > 0.2 then 2 else clamped

/-- `calculateAutoMinOccurrence` from `autoMinOccurrence.ts`.  The JS
`threshold` variable only ever holds integer values (literals, `Math.ceil`
results, and integer sums/clamps of those), so it is carried in `ℤ`; the
source's sequential reassignments of `threshold` appear here as the staged
composition `autoBase` → `autoSizeAdjust` → `spamAdjustments` → `autoRefine`
→ `autoFinalize`, in the source's order. -/
def calculateAutoMinOccurrence (entries : List Entry) (options : AutoOpts) : ℤ :=
  if entries.length = 0 then 1
  else if entries.length < 10 then 1
  else
    let analysis := analyzeData entries
    let threshold : ℤ := if analysis.spamRatio > 0.2 then 2 else 1
    if analysis.diversity ≥ 0.8 ∧ analysis.spamRatio < 0.15 then max threshold 1
    else if analysis.dominanceRatio > 0.4 then
      max 2 (min ⌈(analysis.maxFrequency : ℚ) * 0.15⌉ 10)
    else
      autoFinalize analysis.spamRatio
        (autoRefine (getFrequencyDistribution entries) options.preferredWordCount
          (autoSizeAdjust analysis.totalEntries (autoBase analysis)
            + spamAdjustments options.spamSensitivity analysis.spamRatio))

/-! ## Concrete inputs used by the verification scenarios -/

/-- Concrete group used to witness the singleton tier-B theorem. -/
def gWitness : SemanticGroup :=
  { canonical := [ 'x' ], displayText := [ 'x' ], keyPhrase := [ 'x' ],
    variants := [], totalCount := 7, tier := .C, semanticScore := 0,
    languages := [], colors := [] }

/-- An `Entry` as stored by the participant input flow: raw text, no
precomputed normalization, no color. -/
def mkEntry (s : Str) : Entry := { text := s, normalized_text := [], color := [] }

/-- Ten submissions, three of which ("aaaa") trip the `isLikelySpam`
heuristic: the estimated spam ratio is 0.3. -/
def spamWitnessEntries : List Entry :=
  [ mkEntry (("aaaa").toList), mkEntry (("aaaa").toList), mkEntry (("aaaa").toList),
    mkEntry (("apple").toList), mkEntry (("grape").toList), mkEntry (("mango").toList),
    mkEntry (("lemon").toList), mkEntry (("peach").toList), mkEntry (("melon").toList),
    mkEntry (("berry").toList) ]

/-- 600 submissions: one text ("love") accounts for 420 of them (70%), the
remaining 180 share a second text. -/
def dominantEntries : List Entry :=
  List.replicate 420 (mkEntry (("love").toList)) ++
    List.replicate 180 (mkEntry (("pizza").toList))

/-- The group holding the dominant text (420 of 600 submissions). -/
def loveGroup : SemanticGroup :=
  { canonical := ("love").toList, displayText := ("love").toList,
    keyPhrase := ("love").toList, variants := [], totalCount := 420, tier := .C,
    semanticScore := 0, languages := [], colors := [] }

/-- The group holding the remaining 180 submissions. -/
def pizzaGroup : SemanticGroup :=
  { canonical := ("pizza").toList, displayText := ("pizza").toList,
    keyPhrase := ("pizza").toList, variants := [], totalCount := 180, tier := .C,
    semanticScore := 0, languages := [], colors := [] }

/-- Total count booked under a cluster key in a group list. -/
def totalOf (gs : List SemanticGroup) (canon : Str) : ℕ :=
  ((gs.filter (fun g => g.canonical == canon)).map (fun g => g.totalCount)).sum

/-- Grand total booked across all groups. -/
def sumTotal (gs : List SemanticGroup) : ℕ :=
  (gs.map (fun g => g.totalCount)).sum

/-- Cluster keys of a group list, in order. -/
def canonsOf (gs : List SemanticGroup) : List Str :=
  gs.map (fun g => g.canonical)

/-- Token as produced for the unique raw text "Love". -/
def loveToken1 : ProcessedToken :=
  { original := ("Love").toList, normalized := ("love").toList,
    keyPhrase := ("love").toList, language := .en }

/-- Token as produced for the distinct unique raw text "LOVE", which
normalizes to the same key "love". -/
def loveToken2 : ProcessedToken :=
  { original := ("LOVE").toList, normalized := ("love").toList,
    keyPhrase := ("love").toList, language := .en }

/-- Two submissions, "Love" and "LOVE", both stored with normalized text
"love". -/
def loveEntries : List Entry :=
  [ { text := ("Love").toList, normalized_text := ("love").toList, color := [] },
    { text := ("LOVE").toList, normalized_text := ("love").toList, color := [] } ]

/-! ## Tier assignment: caps and the singleton case -/

lemma tierFor_eq_S (total : ℚ) (index : ℕ) (cum2 : ℚ) :
    tierFor total index cum2 = Tier.S → index < 5 := by
  unfold tierFor
  split_ifs with h1 h2 h3 <;> intro h <;> first | exact h1.1 | simp_all

lemma tierFor_eq_S_or_A (total : ℚ) (index : ℕ) (cum2 : ℚ) :
    tierFor total index cum2 = Tier.S ∨ tierFor total index cum2 = Tier.A →
      index < 20 := by
  unfold tierFor
  split_ifs with h1 h2 h3 <;> intro h
  · exact lt_of_lt_of_le h1.1 (by omega)
  · exact h2.1
  · simp_all
  · simp_all

lemma assignTiersAux_S_count (total : ℚ) :
    ∀ (gs : List SemanticGroup) (idx : ℕ) (cum : ℚ),
      (assignTiersAux total gs idx cum).countP (fun g => g.tier == Tier.S) ≤ 5 - idx := by
  intro gs
  induction gs with
  | nil => intro idx cum; simp [assignTiersAux]
  | cons g rest ih =>
    intro idx cum
    rw [assignTiersAux, List.countP_cons]
    have htail := ih (idx + 1) (cum + ((g.totalCount : ℚ) / total) * 100)
    by_cases h5 : idx < 5
    · split <;> omega
    · have hne : tierFor total idx (cum + ((g.totalCount : ℚ) / total) * 100) ≠ Tier.S :=
        fun hc => h5 (tierFor_eq_S _ _ _ hc)
      split
      · next hcond => exact absurd (by simpa using hcond) hne
      · omega

lemma assignTiersAux_SA_count (total : ℚ) :
    ∀ (gs : List SemanticGroup) (idx : ℕ) (cum : ℚ),
      (assignTiersAux total gs idx cum).countP
          (fun g => g.tier == Tier.S || g.tier == Tier.A) ≤ 20 - idx := by
  intro gs
  induction gs with
  | nil => intro idx cum; simp [assignTiersAux]
  | cons g rest ih =>
    intro idx cum
    rw [assignTiersAux, List.countP_cons]
    have htail := ih (idx + 1) (cum + ((g.totalCount : ℚ) / total) * 100)
    by_cases h20 : idx < 20
    · split <;> omega
    · have hne : ¬ (tierFor total idx (cum + ((g.totalCount : ℚ) / total) * 100) = Tier.S ∨
          tierFor total idx (cum + ((g.totalCount : ℚ) / total) * 100) = Tier.A) :=
        fun hc => h20 (tierFor_eq_S_or_A _ _ _ hc)
      split
      · next hcond => exact absurd (by simpa using hcond) hne
      · omega

/-- C4: for every list of groups given to the tier assigner, at most 5 groups
are assigned tier S, and at most 20 groups are assigned tier S or tier A
combined. -/
theorem assignTiers_tier_caps (groups : List SemanticGroup) :
    ((assignTiers groups).countP (fun g => g.tier == Tier.S)) ≤ 5 ∧
    ((assignTiers groups).countP (fun g => g.tier == Tier.S || g.tier == Tier.A)) ≤ 20 := by
  unfold assignTiers
  exact ⟨by simpa using assignTiersAux_S_count _ _ 0 0,
         by simpa using assignTiersAux_SA_count _ _ 0 0⟩

/-- C10: a single group with positive `totalCount` is assigned tier B — its
own 100% cumulative share exceeds both the 65% S-cap and the 90% A-cap while
its index 0 is below 50. -/
lemma tierFor_100 (total : ℚ) : tierFor total 0 100 = Tier.B := by
  have h1 : ¬((0 : ℕ) < 5 ∧ 0 < total ∧ (100 : ℚ) ≤ 65) := by
    rintro ⟨-, -, hc⟩; norm_num at hc
  have h2 : ¬((0 : ℕ) < 20 ∧ 0 < total ∧ (100 : ℚ) ≤ 90) := by
    rintro ⟨-, -, hc⟩; norm_num at hc
  unfold tierFor
  rw [if_neg h1, if_neg h2, if_pos (by norm_num)]

theorem assignTiers_singleton_tier_B (g : SemanticGroup) (h : 0 < g.totalCount) :
    (assignTiers [g]).map (fun x => x.tier) = [Tier.B] := by
  have hq : (0 : ℚ) < (g.totalCount : ℚ) := by exact_mod_cast h
  unfold assignTiers sortGroupsDesc
  simp only [List.foldr, insertGroupDesc, List.map_cons, List.map_nil, List.sum_cons,
    List.sum_nil, add_zero, assignTiersAux]
  have hc : (0 : ℚ) + ((g.totalCount : ℚ) / ((g.totalCount : ℕ) : ℚ)) * 100 = 100 := by
    rw [div_self hq.ne', zero_add, one_mul]
  rw [hc, tierFor_100]

/-- Witness for C10 at a concrete single group of count 7. -/
theorem assignTiers_singleton_tier_B_witness :
    0 < gWitness.totalCount ∧ (assignTiers [gWitness]).map (fun x => x.tier) = [Tier.B] :=
  ⟨by decide, assignTiers_singleton_tier_B gWitness (by decide)⟩

/-! ## The spam-sensitivity adjustment table -/

/-- C8 (code bug): with high sensitivity the source's ternary
`spamRatio > 0.1 ? 2 : spamRatio > 0.25 ? 3 : 0` tests `> 0.1` first, so the
`+3` arm for `spamRatio > 0.25` is unreachable: at `spamRatio = 0.3` the bonus
is `2`, and for every ratio the bonus is `2` past `0.1` and `0` otherwise. -/
theorem spamAdjustments_high_plus3_dead :
    spamAdjustments SpamSensitivity.high (3 / 10) = 2 ∧
    (∀ r : ℚ, spamAdjustments SpamSensitivity.high r = if r > 0.1 then 2 else 0) := by
  constructor
  · norm_num [spamAdjustments]
  · intro r
    unfold spamAdjustments
    by_cases h : r > 0.1
    · simp [h]
    · have h2 : ¬ r > 0.25 := by
        rw [not_lt] at h ⊢
        calc r ≤ (0.1 : ℚ) := h
        _ ≤ 0.25 := by norm_num
      simp [h, h2]

/-! ## Threshold calculator: bounds and the spam floor -/

lemma autoFinalize_bounds (spamRatio : ℚ) (t : ℤ) :
    1 ≤ autoFinalize spamRatio t ∧ autoFinalize spamRatio t ≤ 10 := by
  simp only [autoFinalize]
  split_ifs <;> omega

lemma autoFinalize_ge_two (spamRatio : ℚ) (t : ℤ) (h : spamRatio > 0.2) :
    2 ≤ autoFinalize spamRatio t := by
  simp only [autoFinalize]
  split
  · norm_num
  · next hcond =>
    have h1 : ¬ (max 1 (min t 10) = 1) := fun hx => hcond ⟨hx, h⟩
    omega

/-- C3: for every non-empty entry list and every option combination, the
auto threshold is an integer in [1,10]; for fewer than 10 entries it is
exactly 1. -/
theorem calculateAutoMinOccurrence_bounds (entries : List Entry) (opts : AutoOpts)
    (h : entries ≠ []) :
    (1 ≤ calculateAutoMinOccurrence entries opts ∧
      calculateAutoMinOccurrence entries opts ≤ 10) ∧
    (entries.length < 10 → calculateAutoMinOccurrence entries opts = 1) := by
  have hfin := autoFinalize_bounds (analyzeData entries).spamRatio
    (autoRefine (getFrequencyDistribution entries) opts.preferredWordCount
      (autoSizeAdjust (analyzeData entries).totalEntries (autoBase (analyzeData entries))
        + spamAdjustments opts.spamSensitivity (analyzeData entries).spamRatio))
  simp only [calculateAutoMinOccurrence]
  split_ifs <;> refine ⟨⟨?_, ?_⟩, fun hlt => ?_⟩ <;> omega

/-- Witness for C3 at a concrete one-entry list. -/
theorem calculateAutoMinOccurrence_bounds_witness :
    ([⟨("hello").toList, [], []⟩] : List Entry) ≠ [] ∧
    ((1 ≤ calculateAutoMinOccurrence [⟨("hello").toList, [], []⟩] {} ∧
       calculateAutoMinOccurrence [⟨("hello").toList, [], []⟩] {} ≤ 10) ∧
     (([⟨("hello").toList, [], []⟩] : List Entry).length < 10 →
       calculateAutoMinOccurrence [⟨("hello").toList, [], []⟩] {} = 1)) :=
  ⟨by decide, calculateAutoMinOccurrence_bounds [⟨("hello").toList, [], []⟩] {} (by decide)⟩

/-- C7: with at least 10 entries and an estimated spam ratio above 0.2, the
auto threshold never falls back to 1: every sensitivity setting and every
preferred word count yields at least 2. -/
theorem calculateAutoMinOccurrence_spam_floor (entries : List Entry) (opts : AutoOpts)
    (hlen : 10 ≤ entries.length) (hspam : estimateSpamRatio entries > 0.2) :
    2 ≤ calculateAutoMinOccurrence entries opts := by
  have hne : entries ≠ [] := by
    intro hx
    rw [hx] at hlen
    simp at hlen
  have hratio : (analyzeData entries).spamRatio = estimateSpamRatio entries := by
    unfold analyzeData
    rw [if_neg hne]
  have hsr : (analyzeData entries).spamRatio > 0.2 := by
    rw [hratio]; exact hspam
  simp only [calculateAutoMinOccurrence]
  rw [if_neg (by omega), if_neg (by omega),
    if_neg (fun hc => absurd hsr (by have h2 := hc.2; linarith))]
  split
  · exact le_max_left _ _
  · exact autoFinalize_ge_two _ _ hsr

lemma analyzeData_of_ne_nil (entries : List Entry) (h : ¬ entries = []) :
    analyzeData entries =
      { totalEntries := entries.length,
        uniqueWords := (getFrequencyDistribution entries).length,
        diversity := ((getFrequencyDistribution entries).length : ℚ) / (entries.length : ℚ),
        maxFrequency := (getFrequencyDistribution entries).headD 0,
        avgFrequency := (entries.length : ℚ) / ((getFrequencyDistribution entries).length : ℚ),
        medianFrequency := calculateMedian (getFrequencyDistribution entries),
        spamRatio := estimateSpamRatio entries,
        dominanceRatio :=
          (((getFrequencyDistribution entries).headD 0 : ℕ) : ℚ) / (entries.length : ℚ) } := by
  unfold analyzeData
  rw [if_neg h]

lemma estimateSpamRatio_eval (entries : List Entry) (k m : ℕ)
    (hk : entries.countP (fun e => isLikelySpam e.text) = k)
    (hm : max entries.length 1 = m) :
    estimateSpamRatio entries = (k : ℚ) / (m : ℚ) := by
  unfold estimateSpamRatio
  rw [hk, hm]

lemma spamWitnessEntries_ratio : estimateSpamRatio spamWitnessEntries > 0.2 := by
  rw [estimateSpamRatio_eval spamWitnessEntries 3 10 (by decide) (by decide)]
  norm_num

/-- Witness for C7 at ten concrete submissions with spam ratio 0.3. -/
theorem calculateAutoMinOccurrence_spam_floor_witness :
    (10 ≤ spamWitnessEntries.length ∧ estimateSpamRatio spamWitnessEntries > 0.2) ∧
    2 ≤ calculateAutoMinOccurrence spamWitnessEntries {} :=
  ⟨⟨by decide, spamWitnessEntries_ratio⟩,
   calculateAutoMinOccurrence_spam_floor spamWitnessEntries {}
     (by decide) spamWitnessEntries_ratio⟩

/-! ## The 600-submission, 70%-dominant scenario -/

lemma dominantEntries_freq_headD : (getFrequencyDistribution dominantEntries).headD 0 = 420 := by
  decide

lemma dominantEntries_freq_length : (getFrequencyDistribution dominantEntries).length = 2 := by
  decide

lemma dominantEntries_length : dominantEntries.length = 600 := by decide

lemma dominantEntries_dominanceRatio :
    (analyzeData dominantEntries).dominanceRatio = 7 / 10 := by
  rw [analyzeData_of_ne_nil dominantEntries (by decide)]
  simp only [dominantEntries_freq_headD, dominantEntries_length]
  norm_num

lemma dominantEntries_not_case1 :
    ¬((analyzeData dominantEntries).diversity ≥ 0.8 ∧
      (analyzeData dominantEntries).spamRatio < 0.15) := by
  rintro ⟨hd, -⟩
  rw [analyzeData_of_ne_nil dominantEntries (by decide)] at hd
  simp only [dominantEntries_freq_length, dominantEntries_length] at hd
  norm_num at hd

lemma dominantEntries_threshold : calculateAutoMinOccurrence dominantEntries {} = 10 := by
  simp only [calculateAutoMinOccurrence]
  rw [if_neg (by decide), if_neg (by decide), if_neg dominantEntries_not_case1,
    if_pos (by rw [dominantEntries_dominanceRatio]; norm_num)]
  rw [analyzeData_of_ne_nil dominantEntries (by decide)]
  simp only [dominantEntries_freq_headD]
  have hceil : (((420 : ℕ) : ℚ) * 0.15) = ((63 : ℤ) : ℚ) := by push_cast; norm_num
  rw [hceil, Int.ceil_intCast]
  decide

lemma dominant_tiers :
    (assignTiers [loveGroup, pizzaGroup]).map (fun g => g.tier) = [Tier.A, Tier.B] := by
  have hsort : sortGroupsDesc [loveGroup, pizzaGroup] = [loveGroup, pizzaGroup] := by
    simp [sortGroupsDesc, insertGroupDesc, loveGroup, pizzaGroup]
  simp only [assignTiers]
  rw [hsort]
  have htotal : ((List.map (fun g => g.totalCount) [loveGroup, pizzaGroup]).sum : ℕ) = 600 := by
    decide
  rw [htotal]
  simp only [assignTiersAux]
  have h1 : (0 : ℚ) + ((loveGroup.totalCount : ℚ) / ((600 : ℕ) : ℚ)) * 100 = 70 := by
    rw [show loveGroup.totalCount = 420 from rfl]
    push_cast
    norm_num
  have h2 : (70 : ℚ) + ((pizzaGroup.totalCount : ℚ) / ((600 : ℕ) : ℚ)) * 100 = 100 := by
    rw [show pizzaGroup.totalCount = 180 from rfl]
    push_cast
    norm_num
  rw [h1, h2]
  have ht1 : tierFor ((600 : ℕ) : ℚ) 0 70 = Tier.A := by
    unfold tierFor
    rw [if_neg, if_pos]
    · refine ⟨by omega, by push_cast; norm_num, by norm_num⟩
    · rintro ⟨-, -, hc⟩
      norm_num at hc
  have ht2 : tierFor ((600 : ℕ) : ℚ) 1 100 = Tier.B := by
    unfold tierFor
    rw [if_neg, if_neg, if_pos (by omega)]
    · rintro ⟨-, -, hc⟩
      norm_num at hc
    · rintro ⟨-, -, hc⟩
      norm_num at hc
  rw [ht1, ht2]
  simp

/-- C6 (counterexample): on the 600-submission input with a 70% dominant
text, the dominance ratio is 0.7, yet after tier assignment the dominant
group receives tier A, not tier S (its own 70% share exceeds the 65%
cumulative cap). -/
theorem dominant70_counterexample :
    (analyzeData dominantEntries).dominanceRatio = 7 / 10 ∧
    (assignTiers [loveGroup, pizzaGroup]).map (fun g => g.tier) = [Tier.A, Tier.B] ∧
    Tier.A ≠ Tier.S :=
  ⟨dominantEntries_dominanceRatio, dominant_tiers, by decide⟩

/-- C6 (amended): on the 600-submission input with a 70% dominant text, the
`dominanceRatio > 0.4` branch is engaged (the high-diversity early return
does not fire), the returned threshold is 10 ≥ 2, and after tier assignment
the dominant group is assigned tier A — the top achievable tier here, since
its own 70% cumulative share exceeds the 65% S-cap. -/
theorem dominant70_amended :
    (analyzeData dominantEntries).dominanceRatio > 0.4 ∧
    ¬((analyzeData dominantEntries).diversity ≥ 0.8 ∧
        (analyzeData dominantEntries).spamRatio < 0.15) ∧
    calculateAutoMinOccurrence dominantEntries {} = 10 ∧
    2 ≤ calculateAutoMinOccurrence dominantEntries {} ∧
    (assignTiers [loveGroup, pizzaGroup]).map (fun g => g.tier) = [Tier.A, Tier.B] :=
  ⟨by rw [dominantEntries_dominanceRatio]; norm_num,
   dominantEntries_not_case1,
   dominantEntries_threshold,
   by rw [dominantEntries_threshold]; norm_num,
   dominant_tiers⟩

/-! ## Character-level facts -/

lemma charToNat_ofNat (n : ℕ) (h : n.isValidChar) : (Char.ofNat n).toNat = n := by
  unfold Char.ofNat
  rw [dif_pos h]
  unfold Char.ofNatAux Char.toNat
  simp [UInt32.toNat]

lemma toLowerChar_toNat (c : Char) :
    (toLowerChar c).toNat =
      if 65 ≤ c.toNat ∧ c.toNat ≤ 90 then c.toNat + 32 else c.toNat := by
  unfold toLowerChar
  split
  · next h =>
    simp only [Bool.and_eq_true, decide_eq_true_eq] at h
    rw [charToNat_ofNat _ (Or.inl (by omega)), if_pos (by omega)]
  · next h =>
    simp only [Bool.and_eq_true, decide_eq_true_eq, not_and, not_le] at h
    rw [if_neg (by omega)]

lemma isCJK_iff (c : Char) :
    isCJK c = true ↔
      (0x4e00 ≤ c.toNat ∧ c.toNat ≤ 0x9fff) ∨ (0x3040 ≤ c.toNat ∧ c.toNat ≤ 0x309f) ∨
      (0x30a0 ≤ c.toNat ∧ c.toNat ≤ 0x30ff) := by
  simp [isCJK, or_assoc]

lemma jsWs_iff (c : Char) :
    jsWs c = true ↔
      (c.toNat = 0x20 ∨ c.toNat = 0x09 ∨ c.toNat = 0x0a ∨ c.toNat = 0x0d ∨
       c.toNat = 0x0b ∨ c.toNat = 0x0c ∨ c.toNat = 0xa0 ∨ c.toNat = 0x1680 ∨
       (0x2000 ≤ c.toNat ∧ c.toNat ≤ 0x200a) ∨
       c.toNat = 0x2028 ∨ c.toNat = 0x2029 ∨ c.toNat = 0x202f ∨
       c.toNat = 0x205f ∨ c.toNat = 0x3000 ∨ c.toNat = 0xfeff) := by
  simp [jsWs, or_assoc]

lemma isDotChar_iff (c : Char) :
    isDotChar c = true ↔
      ¬(c.toNat = 0x0a ∨ c.toNat = 0x0d ∨ c.toNat = 0x2028 ∨ c.toNat = 0x2029) := by
  simp [isDotChar, or_assoc, and_assoc]

lemma isLatinLetter_iff (c : Char) :
    isLatinLetter c = true ↔
      (97 ≤ c.toNat ∧ c.toNat ≤ 122) ∨ (65 ≤ c.toNat ∧ c.toNat ≤ 90) := by
  simp [isLatinLetter]

lemma jsWs_false_of_latin (c : Char) (h : isLatinLetter c = true) : jsWs c = false := by
  rw [isLatinLetter_iff] at h
  rw [Bool.eq_false_iff, Ne, jsWs_iff]
  omega

lemma isCJK_false_of_ascii (c : Char) (h : isAsciiChar c = true) : isCJK c = false := by
  rw [isAsciiChar, decide_eq_true_eq] at h
  rw [Bool.eq_false_iff, Ne, isCJK_iff]
  omega

lemma isCJK_false_of_latin (c : Char) (h : isLatinLetter c = true) : isCJK c = false := by
  rw [isLatinLetter_iff] at h
  rw [Bool.eq_false_iff, Ne, isCJK_iff]
  omega

lemma isCJK_toLowerChar_false (c : Char) (h : isCJK c = false) :
    isCJK (toLowerChar c) = false := by
  rw [Bool.eq_false_iff, Ne, isCJK_iff] at h ⊢
  rw [toLowerChar_toNat]
  split_ifs <;> omega

lemma isDotChar_toLowerChar (c : Char) (h : jsWs c = false) :
    isDotChar (toLowerChar c) = true := by
  rw [Bool.eq_false_iff, Ne, jsWs_iff] at h
  rw [isDotChar_iff, toLowerChar_toNat]
  split_ifs <;> omega

lemma isLatinLetter_toLowerChar (c : Char) (h : isLatinLetter c = true) :
    isLatinLetter (toLowerChar c) = true := by
  rw [isLatinLetter_iff] at h ⊢
  rw [toLowerChar_toNat]
  split_ifs <;> omega

/-! ## List-level facts about trimming, runs and blocks -/

lemma mem_dropWhile_of_mem (p : Char → Bool) (x : Char) (hx : p x = false) :
    ∀ l : Str, x ∈ l → x ∈ l.dropWhile p := by
  intro l
  induction l with
  | nil => intro h; exact absurd h (List.not_mem_nil x)
  | cons a as ih =>
    intro h
    rw [List.dropWhile_cons]
    split
    · next ha =>
      rcases List.mem_cons.mp h with rfl | hmem
      · rw [hx] at ha; cases ha
      · exact ih hmem
    · exact h

lemma mem_trimJS_of_mem (x : Char) (l : Str) (hx : jsWs x = false) (h : x ∈ l) :
    x ∈ trimJS l := by
  unfold trimJS
  rw [List.mem_reverse]
  exact mem_dropWhile_of_mem jsWs x hx _
    (List.mem_reverse.mpr (mem_dropWhile_of_mem jsWs x hx _ h))

lemma mem_of_mem_trimJS (x : Char) (l : Str) (h : x ∈ trimJS l) : x ∈ l := by
  unfold trimJS at h
  rw [List.mem_reverse] at h
  have h2 : x ∈ (l.dropWhile jsWs).reverse := (List.dropWhile_sublist _).subset h
  rw [List.mem_reverse] at h2
  exact (List.dropWhile_sublist _).subset h2

lemma dropWhile_block (c : Char) (m : ℕ) (hm : 1 ≤ m) (hc : jsWs c = false) :
    ∀ pre post : Str, ∃ pre2 : Str,
      (pre ++ (List.replicate m c ++ post)).dropWhile jsWs =
        pre2 ++ (List.replicate m c ++ post) := by
  intro pre post
  induction pre with
  | nil =>
    refine ⟨[], ?_⟩
    cases m with
    | zero => omega
    | succ m2 =>
      rw [List.nil_append, List.replicate_succ, List.cons_append, List.dropWhile_cons,
        if_neg (by rw [hc]; simp)]
  | cons a as ih =>
    rw [List.cons_append, List.dropWhile_cons]
    split
    · exact ih
    · exact ⟨a :: as, rfl⟩

lemma trimJS_block (c : Char) (m : ℕ) (hm : 1 ≤ m) (hc : jsWs c = false)
    (pre post : Str) :
    ∃ p2 q2 : Str,
      trimJS (pre ++ (List.replicate m c ++ post)) = p2 ++ (List.replicate m c ++ q2) := by
  obtain ⟨p2, h1⟩ := dropWhile_block c m hm hc pre post
  unfold trimJS
  rw [h1]
  have hrev : (p2 ++ (List.replicate m c ++ post)).reverse =
      post.reverse ++ (List.replicate m c ++ p2.reverse) := by
    simp [List.reverse_append, List.reverse_replicate, List.append_assoc]
  rw [hrev]
  obtain ⟨p3, h2⟩ := dropWhile_block c m hm hc post.reverse p2.reverse
  rw [h2]
  exact ⟨p2, p3.reverse,
    by simp [List.reverse_append, List.reverse_replicate, List.append_assoc]⟩

lemma takeWhile_replicate_ge (c : Char) (q : Str) :
    ∀ m : ℕ, m ≤ (List.takeWhile (fun d => d == c) (List.replicate m c ++ q)).length := by
  intro m
  induction m with
  | zero => omega
  | succ m2 ih =>
    rw [List.replicate_succ, List.cons_append, List.takeWhile_cons, if_pos (by simp)]
    simpa using ih

lemma hasRunGe_of_parts (k : ℕ) (c : Char) (hdot : isDotChar c = true) (hk : 1 ≤ k) :
    ∀ (p : Str) (m : ℕ) (q : Str), k ≤ m →
      hasRunGe k (p ++ (List.replicate m c ++ q)) = true := by
  intro p
  induction p with
  | nil =>
    intro m q hkm
    cases m with
    | zero => omega
    | succ m2 =>
      rw [List.nil_append, List.replicate_succ, List.cons_append]
      simp only [hasRunGe, Bool.or_eq_true, Bool.and_eq_true]
      refine Or.inl ⟨hdot, ?_⟩
      have := takeWhile_replicate_ge c q m2
      simp only [decide_eq_true_eq]
      omega
  | cons a as ih =>
    intro m q hkm
    rw [List.cons_append]
    simp only [hasRunGe, Bool.or_eq_true]
    exact Or.inr (ih m q hkm)

lemma dropWhile_eq_self_of (p : Char → Bool) (l : Str) (h : ∀ x ∈ l, p x = false) :
    l.dropWhile p = l := by
  cases l with
  | nil => rfl
  | cons a as =>
    rw [List.dropWhile_cons, if_neg (by rw [h a (List.mem_cons_self a as)]; simp)]

lemma trimJS_eq_self_of (l : Str) (h : ∀ x ∈ l, jsWs x = false) : trimJS l = l := by
  unfold trimJS
  rw [dropWhile_eq_self_of jsWs l h,
    dropWhile_eq_self_of jsWs l.reverse (fun x hx => h x (List.mem_reverse.mp hx)),
    List.reverse_reverse]

lemma repBlock_length (n : ℕ) (b : Str) : (repBlock n b).length = n * b.length := by
  induction n with
  | zero => simp [repBlock]
  | succ n2 ih =>
    rw [repBlock, List.length_append, ih]
    ring

lemma mem_repBlock (x : Char) (n : ℕ) (b : Str) (h : x ∈ repBlock n b) : x ∈ b := by
  induction n with
  | zero => exact absurd h (List.not_mem_nil x)
  | succ n2 ih =>
    rw [repBlock] at h
    rcases List.mem_append.mp h with h1 | h2
    · exact h1
    · exact ih h2

lemma map_repBlock (f : Char → Char) (n : ℕ) (b : Str) :
    (repBlock n b).map f = repBlock n (b.map f) := by
  induction n with
  | zero => rfl
  | succ n2 ih => rw [repBlock, repBlock, List.map_append, ih]

lemma matchRep_repBlock (b : Str) (n minReps : ℕ) (hb : 1 ≤ b.length)
    (hminr : 1 ≤ minReps) (hlat : b.all isLatinLetter = true) (hn : minReps ≤ n) :
    matchRep b.length minReps (repBlock n b) = true := by
  have hlen : (repBlock n b).length = n * b.length := repBlock_length n b
  have htake : (repBlock n b).take b.length = b := by
    cases n with
    | zero => omega
    | succ n2 =>
      rw [show repBlock (n2 + 1) b = b ++ repBlock n2 b from rfl]
      exact List.take_left _ _
  unfold matchRep
  simp only [Bool.and_eq_true, decide_eq_true_eq, beq_iff_eq]
  refine ⟨⟨⟨⟨hb, ?_⟩, ?_⟩, ?_⟩, ?_⟩
  · rw [hlen, Nat.mul_comm]
    exact Nat.mul_le_mul_right b.length hn
  · rw [hlen, Nat.mul_mod_left]
  · rw [htake]
    exact hlat
  · rw [htake, hlen, Nat.mul_div_cancel n (by omega)]

/-- `isSpam` returns `true` whenever the trimmed, lowercased input is
non-empty, contains no CJK character, and satisfies the run rule or the
block-repetition rule (the later rules need not be inspected). -/
lemma isSpam_true_intro (s : Str)
    (hne : ¬(s = [] ∨ (trimJS s).length = 0))
    (hcjk : ((trimJS s).map toLowerChar).any isCJK = false)
    (hchk : hasRunGe 5 ((trimJS s).map toLowerChar) = true ∨
      (matchRep 2 5 ((trimJS s).map toLowerChar) ||
        matchRep 3 5 ((trimJS s).map toLowerChar)) = true) :
    isSpam s = true := by
  simp only [isSpam]
  rw [if_neg hne, if_neg (by simp [hcjk])]
  rcases hchk with h | h
  · rw [if_pos h]
  · cases hrun : hasRunGe 5 ((trimJS s).map toLowerChar) with
    | true => rw [if_pos (by simp [hrun])]
    | false =>
      cases hmr : matchRep 2 4 ((trimJS s).map toLowerChar) with
      | true => rw [if_neg (by simp [hrun]), if_pos (by simp [hmr])]
      | false => rw [if_neg (by simp [hrun]), if_neg (by simp [hmr]), if_pos h]

/-- Any string decomposing around a block of five identical non-whitespace
characters, all of whose characters are non-CJK, is classified spam via the
`(.)\1{4,}` rule. -/
lemma isSpam_true_of_run5 (s : Str) (c : Char) (p q : Str)
    (hs : s = p ++ (List.replicate 5 c ++ q))
    (hws : jsWs c = false)
    (hcjk : ∀ x ∈ s, isCJK x = false) :
    isSpam s = true := by
  subst hs
  obtain ⟨p2, q2, htrim⟩ := trimJS_block c 5 (by omega) hws p q
  have hne : ¬((p ++ (List.replicate 5 c ++ q)) = [] ∨
      (trimJS (p ++ (List.replicate 5 c ++ q))).length = 0) := by
    rintro (h1 | h2)
    · rcases List.append_eq_nil.mp h1 with ⟨-, h3⟩
      rcases List.append_eq_nil.mp h3 with ⟨h4, -⟩
      exact absurd h4 (by simp)
    · rw [htrim] at h2
      simp only [List.length_append, List.length_replicate] at h2
      omega
  have hanyc :
      ((trimJS (p ++ (List.replicate 5 c ++ q))).map toLowerChar).any isCJK = false := by
    rw [List.any_eq_false]
    intro x hx
    rw [List.mem_map] at hx
    obtain ⟨y, hy1, rfl⟩ := hx
    simp [isCJK_toLowerChar_false y (hcjk y (mem_of_mem_trimJS y _ hy1))]
  apply isSpam_true_intro _ hne hanyc
  left
  rw [htrim, List.map_append, List.map_append, List.map_replicate]
  exact hasRunGe_of_parts 5 (toLowerChar c) (isDotChar_toLowerChar c hws) (by omega)
    _ 5 _ (le_refl 5)

/-- C5: any string containing at least one CJK character is never classified
spam, regardless of length or repetition. -/
theorem isSpam_cjk_safe (s : Str) (h : ∃ c ∈ s, isCJK c = true) : isSpam s = false := by
  obtain ⟨c, hc, hCJK⟩ := h
  have hranges := (isCJK_iff c).mp hCJK
  have hnw : jsWs c = false := by
    rw [Bool.eq_false_iff, Ne, jsWs_iff]
    omega
  have hlow : toLowerChar c = c := by
    unfold toLowerChar
    rw [if_neg (by simp only [Bool.and_eq_true, decide_eq_true_eq]; omega)]
  have hmem1 : c ∈ trimJS s := mem_trimJS_of_mem c s hnw hc
  have hmem2 : c ∈ (trimJS s).map toLowerChar := by
    have h2 := List.mem_map_of_mem toLowerChar hmem1
    rwa [hlow] at h2
  have hne : ¬(s = [] ∨ (trimJS s).length = 0) := by
    rintro (rfl | h0)
    · exact absurd hc (List.not_mem_nil c)
    · rw [List.length_eq_zero] at h0
      rw [h0] at hmem1
      exact absurd hmem1 (List.not_mem_nil c)
  simp only [isSpam]
  rw [if_neg hne, if_pos (List.any_eq_true.mpr ⟨c, hmem2, hCJK⟩)]

/-- Witness for C5 at the single Chinese character 中 (U+4E2D). -/
theorem isSpam_cjk_safe_witness :
    (∃ c ∈ ("中").toList, isCJK c = true) ∧ isSpam (("中").toList) = false :=
  ⟨by decide, isSpam_cjk_safe (("中").toList) (by decide)⟩

/-- C9 (counterexample): "aaaa" is a run of exactly four identical
characters yet `isSpam` rejects nothing — the `(.)\1{4,}` regex needs five;
and even genuine spam ("aaaaa") is un-classified by appending a CJK
character, so extension does not preserve the spam verdict in general. -/
theorem isSpam_run4_not_monotone :
    ("aaaa").toList = List.replicate 4 'a' ∧
    isSpam (("aaaa").toList) = false ∧
    isSpam (("aaaaa").toList) = true ∧
    isSpam (("aaaaa中").toList) = false := by decide

/-- C9 (amended, confined to the ASCII fragment where the embedding is
exact): within ASCII strings, a run of five identical non-whitespace
characters makes a string spam, and it stays spam under arbitrary
prepending/appending of further ASCII characters — the run rule is
substring-based, and ASCII extensions can introduce neither a CJK character
nor a case-expanding or surrogate-pair code point that could change the
verdict. -/
theorem isSpam_run5_extension (pre s post : Str)
    (hascii : (pre ++ s ++ post).all isAsciiChar = true)
    (hrun : ∃ c p q, s = p ++ (List.replicate 5 c ++ q) ∧ jsWs c = false) :
    isSpam (pre ++ s ++ post) = true := by
  obtain ⟨c, p, q, rfl, hws⟩ := hrun
  have hnoCJK : ∀ x ∈ pre ++ (p ++ (List.replicate 5 c ++ q)) ++ post, isCJK x = false :=
    fun x hx => isCJK_false_of_ascii x ((List.all_eq_true.mp hascii) x hx)
  have hassoc : pre ++ (p ++ (List.replicate 5 c ++ q)) ++ post =
      (pre ++ p) ++ (List.replicate 5 c ++ (q ++ post)) := by
    simp [List.append_assoc]
  rw [hassoc] at hnoCJK ⊢
  exact isSpam_true_of_run5 _ c (pre ++ p) (q ++ post) rfl hws hnoCJK

/-- Witness for C9 at "aaaaa" extended to "baaaaab". -/
theorem isSpam_run5_extension_witness :
    (((("b").toList ++ ("aaaaa").toList ++ ("b").toList).all isAsciiChar = true) ∧
      (∃ c p q, ("aaaaa").toList = p ++ (List.replicate 5 c ++ q) ∧ jsWs c = false)) ∧
    isSpam (("b").toList ++ ("aaaaa").toList ++ ("b").toList) = true :=
  ⟨⟨by decide, ⟨'a', [], [], by decide, by decide⟩⟩,
   isSpam_run5_extension (("b").toList) (("aaaaa").toList) (("b").toList)
     (by decide) ⟨'a', [], [], by decide, by decide⟩⟩

/-- C1 (counterexample): with the current relaxed filter none of the four
probe inputs is classified spam — "aaaa" (a 4-run), "asdasdasd" and
"qweqweqwe" (3 contiguous repetitions of a 3-character block) all fall below
the regexes' 5-run / 5-repetition thresholds, and "hello" is clean. -/
theorem isSpam_four_inputs :
    isSpam (("asdasdasd").toList) = false ∧
    isSpam (("qweqweqwe").toList) = false ∧
    isSpam (("aaaa").toList) = false ∧
    isSpam (("hello").toList) = false := by decide

/-- C1 (amended): the spam filter classifies as spam every Latin-letter
string containing five or more identical consecutive characters, and every
string that is a 2–3 letter block repeated five or more times contiguously;
of the four probe inputs "asdasdasd", "qweqweqwe", "aaaa", "hello", none is
classified spam. -/
theorem isSpam_amended_rules :
    (∀ s : Str, s.all isLatinLetter = true →
        (∃ c p q, s = p ++ (List.replicate 5 c ++ q)) → isSpam s = true) ∧
    (∀ (b : Str) (n : ℕ), 2 ≤ b.length → b.length ≤ 3 →
        b.all isLatinLetter = true → 5 ≤ n → isSpam (repBlock n b) = true) ∧
    (isSpam (("asdasdasd").toList) = false ∧ isSpam (("qweqweqwe").toList) = false ∧
      isSpam (("aaaa").toList) = false ∧ isSpam (("hello").toList) = false) := by
  refine ⟨?_, ?_, by decide⟩
  · rintro s hall ⟨c, p, q, hs⟩
    have hcl : isLatinLetter c = true := by
      refine (List.all_eq_true.mp hall) c ?_
      rw [hs]
      exact List.mem_append.mpr (Or.inr (List.mem_append.mpr
        (Or.inl (List.mem_replicate.mpr ⟨by omega, rfl⟩))))
    refine isSpam_true_of_run5 s c p q hs (jsWs_false_of_latin c hcl) ?_
    intro x hx
    exact isCJK_false_of_latin x ((List.all_eq_true.mp hall) x hx)
  · intro b n hb2 hb3 hlat hn
    have hchars : ∀ x ∈ repBlock n b, isLatinLetter x = true :=
      fun x hx => (List.all_eq_true.mp hlat) x (mem_repBlock x n b hx)
    have hns : ∀ x ∈ repBlock n b, jsWs x = false :=
      fun x hx => jsWs_false_of_latin x (hchars x hx)
    have htrim : trimJS (repBlock n b) = repBlock n b := trimJS_eq_self_of _ hns
    have hlen : (repBlock n b).length = n * b.length := repBlock_length n b
    have hmul : 10 ≤ n * b.length := by
      have h10 := Nat.mul_le_mul hn hb2
      omega
    have hne : ¬(repBlock n b = [] ∨ (trimJS (repBlock n b)).length = 0) := by
      rintro (h1 | h2)
      · have h3 := congrArg List.length h1
        rw [hlen] at h3
        simp only [List.length_nil] at h3
        omega
      · rw [htrim, hlen] at h2
        omega
    have hanyc : ((trimJS (repBlock n b)).map toLowerChar).any isCJK = false := by
      rw [List.any_eq_false]
      intro x hx
      rw [List.mem_map] at hx
      obtain ⟨y, hy1, rfl⟩ := hx
      rw [htrim] at hy1
      simp [isCJK_false_of_latin _ (isLatinLetter_toLowerChar y (hchars y hy1))]
    apply isSpam_true_intro _ hne hanyc
    right
    rw [htrim, map_repBlock]
    have hlat2 : (b.map toLowerChar).all isLatinLetter = true := by
      rw [List.all_map]
      rw [List.all_eq_true] at hlat ⊢
      exact fun x hx => isLatinLetter_toLowerChar x (hlat x hx)
    have hbl : (b.map toLowerChar).length = b.length := List.length_map b toLowerChar
    simp only [Bool.or_eq_true]
    rcases show b.length = 2 ∨ b.length = 3 by omega with h2 | h3
    · left
      have := matchRep_repBlock (b.map toLowerChar) n 5 (by omega) (by omega) hlat2 hn
      rwa [hbl, h2] at this
    · right
      have := matchRep_repBlock (b.map toLowerChar) n 5 (by omega) (by omega) hlat2 hn
      rwa [hbl, h3] at this

/-- Witness for C1 at "aaaaa" (run rule) and "ababababab" (block rule). -/
theorem isSpam_amended_rules_witness :
    ((("aaaaa").toList).all isLatinLetter = true ∧ isSpam (("aaaaa").toList) = true) ∧
    (2 ≤ (("ab").toList).length ∧ (("ab").toList).all isLatinLetter = true ∧
      isSpam (repBlock 5 (("ab").toList)) = true) :=
  ⟨⟨by decide, isSpam_amended_rules.1 (("aaaaa").toList) (by decide)
      ⟨'a', [], [], by decide⟩⟩,
   ⟨by decide, by decide, isSpam_amended_rules.2.1 (("ab").toList) 5 (by decide)
      (by decide) (by decide) (by decide)⟩⟩

/-! ## Count accounting for `clusterByKeyPhrase` -/

lemma applyToken_totalCount (cm : Str → ℕ) (t2e : Str → Option Entry)
    (t : ProcessedToken) (g : SemanticGroup) :
    (applyToken cm t2e t g).totalCount = g.totalCount + tokenCount cm t := rfl

lemma applyToken_canonical (cm : Str → ℕ) (t2e : Str → Option Entry)
    (t : ProcessedToken) (g : SemanticGroup) :
    (applyToken cm t2e t g).canonical = g.canonical := rfl

lemma newGroup_canonical (t : ProcessedToken) :
    (newGroup t).canonical = lowerStr t.keyPhrase := rfl

lemma totalOf_nil (canon : Str) : totalOf [] canon = 0 := rfl

lemma totalOf_cons (g : SemanticGroup) (gs : List SemanticGroup) (canon : Str) :
    totalOf (g :: gs) canon =
      (if g.canonical = canon then g.totalCount else 0) + totalOf gs canon := by
  unfold totalOf
  rw [List.filter_cons]
  split
  · next h =>
    rw [if_pos (by simpa using h)]
    simp
  · next h =>
    rw [if_neg (by simpa using h)]
    simp

lemma totalOf_addTokenToGroups (cm : Str → ℕ) (t2e : Str → Option Entry)
    (t : ProcessedToken) (canon : Str) :
    ∀ gs : List SemanticGroup,
      totalOf (addTokenToGroups cm t2e t gs) canon =
        totalOf gs canon +
          (if lowerStr t.keyPhrase = canon then tokenCount cm t else 0) := by
  intro gs
  induction gs with
  | nil =>
    rw [addTokenToGroups, totalOf_nil, totalOf_cons, totalOf_nil,
      applyToken_totalCount, applyToken_canonical, newGroup_canonical]
    split <;> simp [newGroup]
  | cons g gs ih =>
    rw [addTokenToGroups]
    split
    · next heq =>
      rw [totalOf_cons, totalOf_cons, applyToken_totalCount, applyToken_canonical]
      have hg : g.canonical = lowerStr t.keyPhrase := by simpa using heq
      by_cases hc : lowerStr t.keyPhrase = canon
      · rw [if_pos (hg.trans hc), if_pos (hg.trans hc), if_pos hc]
        omega
      · rw [if_neg (fun hx => hc (hg.symm.trans hx)), if_neg (fun hx => hc (hg.symm.trans hx)),
          if_neg hc]
        omega
    · rw [totalOf_cons, totalOf_cons, ih]
      omega

lemma totalOf_clusterFold (cm : Str → ℕ) (t2e : Str → Option Entry) (canon : Str) :
    ∀ (ts : List ProcessedToken) (gs : List SemanticGroup),
      totalOf (ts.foldl (fun acc t => addTokenToGroups cm t2e t acc) gs) canon =
        totalOf gs canon +
          (((ts.filter (fun t => lowerStr t.keyPhrase == canon)).map
            (fun t => tokenCount cm t)).sum) := by
  intro ts
  induction ts with
  | nil => intro gs; simp
  | cons t ts ih =>
    intro gs
    rw [List.foldl_cons, ih, totalOf_addTokenToGroups, List.filter_cons]
    split
    · next h =>
      rw [if_pos (by simpa using h)]
      simp only [List.map_cons, List.sum_cons]
      omega
    · next h =>
      rw [if_neg (by simpa using h)]
      omega

lemma sumTotal_nil : sumTotal [] = 0 := rfl

lemma sumTotal_cons (g : SemanticGroup) (gs : List SemanticGroup) :
    sumTotal (g :: gs) = g.totalCount + sumTotal gs := by
  unfold sumTotal
  simp

lemma sumTotal_addTokenToGroups (cm : Str → ℕ) (t2e : Str → Option Entry)
    (t : ProcessedToken) :
    ∀ gs : List SemanticGroup,
      sumTotal (addTokenToGroups cm t2e t gs) = sumTotal gs + tokenCount cm t := by
  intro gs
  induction gs with
  | nil =>
    rw [addTokenToGroups, sumTotal_cons, sumTotal_nil, applyToken_totalCount]
    simp [newGroup]
  | cons g gs ih =>
    rw [addTokenToGroups]
    split
    · rw [sumTotal_cons, sumTotal_cons, applyToken_totalCount]
      omega
    · rw [sumTotal_cons, sumTotal_cons, ih]
      omega

lemma sumTotal_clusterFold (cm : Str → ℕ) (t2e : Str → Option Entry) :
    ∀ (ts : List ProcessedToken) (gs : List SemanticGroup),
      sumTotal (ts.foldl (fun acc t => addTokenToGroups cm t2e t acc) gs) =
        sumTotal gs + ((ts.map (fun t => tokenCount cm t)).sum) := by
  intro ts
  induction ts with
  | nil => intro gs; simp
  | cons t ts ih =>
    intro gs
    rw [List.foldl_cons, ih, sumTotal_addTokenToGroups]
    simp only [List.map_cons, List.sum_cons]
    omega

lemma buildCountMap_eq_countP (entries : List Entry) (k : Str) :
    buildCountMap entries k = entries.countP (fun e => entryKey e == k) := by
  unfold buildCountMap
  suffices h : ∀ (m : Str → ℕ),
      (entries.foldl (fun m e => fun k2 => if k2 == entryKey e then m k2 + 1 else m k2) m) k =
        m k + entries.countP (fun e => entryKey e == k) by
    simpa using h (fun _ => 0)
  induction entries with
  | nil => intro m; simp
  | cons e es ih =>
    intro m
    rw [List.foldl_cons, ih, List.countP_cons]
    show (if k == entryKey e then m k + 1 else m k) + _ = _
    by_cases hk : k = entryKey e
    · rw [if_pos (by simp [hk]), if_pos (by simp [hk])]
      omega
    · rw [if_neg (by simp only [beq_iff_eq]; exact hk),
        if_neg (by simp only [beq_iff_eq]; exact fun hx => hk hx.symm)]
      omega

lemma canons_addTokenToGroups (cm : Str → ℕ) (t2e : Str → Option Entry)
    (t : ProcessedToken) :
    ∀ gs : List SemanticGroup,
      canonsOf (addTokenToGroups cm t2e t gs) =
        if (lowerStr t.keyPhrase) ∈ canonsOf gs then canonsOf gs
        else canonsOf gs ++ [lowerStr t.keyPhrase] := by
  intro gs
  induction gs with
  | nil =>
    rw [addTokenToGroups]
    simp [canonsOf, applyToken_canonical, newGroup_canonical]
  | cons g gs ih =>
    rw [addTokenToGroups]
    split
    · next heq =>
      have hg : g.canonical = lowerStr t.keyPhrase := by simpa using heq
      rw [if_pos]
      · simp [canonsOf, applyToken_canonical]
      · rw [canonsOf, List.map_cons, hg]
        exact List.mem_cons_self _ _
    · next hne =>
      have hg : ¬ g.canonical = lowerStr t.keyPhrase := by simpa using hne
      have hcons : canonsOf (g :: gs) = g.canonical :: canonsOf gs := rfl
      have hcons2 : ∀ l : List SemanticGroup,
          canonsOf (g :: l) = g.canonical :: canonsOf l := fun l => rfl
      rw [hcons2, ih, hcons]
      by_cases hmem : (lowerStr t.keyPhrase) ∈ canonsOf gs
      · rw [if_pos hmem, if_pos (List.mem_cons_of_mem _ hmem)]
      · rw [if_neg hmem, if_neg (by
          intro hx
          rcases List.mem_cons.mp hx with hx1 | hx2
          · exact hg hx1.symm
          · exact hmem hx2)]
        rfl

lemma nodup_canons_addTokenToGroups (cm : Str → ℕ) (t2e : Str → Option Entry)
    (t : ProcessedToken) (gs : List SemanticGroup)
    (h : (canonsOf gs).Nodup) :
    (canonsOf (addTokenToGroups cm t2e t gs)).Nodup := by
  rw [canons_addTokenToGroups]
  split
  · exact h
  · next hmem =>
    simp only [List.nodup_append, List.nodup_cons, List.not_mem_nil, not_false_iff,
      List.nodup_nil, true_and, and_true]
    exact ⟨h, by simpa using hmem⟩

lemma nodup_canons_clusterFold (cm : Str → ℕ) (t2e : Str → Option Entry) :
    ∀ (ts : List ProcessedToken) (gs : List SemanticGroup),
      (canonsOf gs).Nodup →
      (canonsOf (ts.foldl (fun acc t => addTokenToGroups cm t2e t acc) gs)).Nodup := by
  intro ts
  induction ts with
  | nil => intro gs h; exact h
  | cons t ts ih =>
    intro gs h
    rw [List.foldl_cons]
    exact ih _ (nodup_canons_addTokenToGroups cm t2e t gs h)

lemma totalOf_eq_zero_of_not_mem (canon : Str) :
    ∀ gs : List SemanticGroup, canon ∉ canonsOf gs → totalOf gs canon = 0 := by
  intro gs
  induction gs with
  | nil => intro h; rfl
  | cons g gs ih =>
    intro h
    have hne : ¬ g.canonical = canon := by
      intro hx
      exact h (by rw [← hx]; exact List.mem_cons_self _ _)
    have hrest : canon ∉ canonsOf gs := fun hx => h (List.mem_cons_of_mem _ hx)
    rw [totalOf_cons, if_neg hne, ih hrest]

lemma totalOf_of_mem_nodup :
    ∀ (gs : List SemanticGroup) (g : SemanticGroup),
      (canonsOf gs).Nodup → g ∈ gs → totalOf gs g.canonical = g.totalCount := by
  intro gs
  induction gs with
  | nil => intro g h hmem; exact absurd hmem (List.not_mem_nil g)
  | cons x xs ih =>
    intro g hnd hmem
    have hx : x.canonical ∉ canonsOf xs := by
      have := List.nodup_cons.mp hnd
      exact this.1
    have hnd2 : (canonsOf xs).Nodup := (List.nodup_cons.mp hnd).2
    rcases List.mem_cons.mp hmem with rfl | hmem2
    · rw [totalOf_cons, if_pos rfl, totalOf_eq_zero_of_not_mem _ _ hx]
      omega
    · have hne : ¬ x.canonical = g.canonical := by
        intro hx2
        exact hx (hx2 ▸ List.mem_map_of_mem (fun g => g.canonical) hmem2)
      rw [totalOf_cons, if_neg hne, ih g hnd2 hmem2]
      omega

lemma countP_or_disjoint (l : List Entry) (p q : Entry → Bool)
    (h : ∀ e ∈ l, ¬(p e = true ∧ q e = true)) :
    l.countP (fun e => p e || q e) = l.countP p + l.countP q := by
  induction l with
  | nil => simp
  | cons e es ih =>
    have hh := h e (List.mem_cons_self e es)
    have ihh := ih (fun x hx => h x (List.mem_cons_of_mem e hx))
    rw [List.countP_cons, List.countP_cons, List.countP_cons]
    cases hp : p e <;> cases hq : q e
    · simp [hp, hq]
      omega
    · simp [hp, hq]
      omega
    · simp [hp, hq]
      omega
    · exact absurd (And.intro hp hq) hh

lemma sum_countP_nodup_keys (entries : List Entry) :
    ∀ keys : List Str, keys.Nodup →
      ((keys.map (fun k => entries.countP (fun e => entryKey e == k))).sum)
        = entries.countP (fun e => keys.contains (entryKey e)) := by
  intro keys
  induction keys with
  | nil => simp
  | cons k ks ih =>
    intro hnd
    have hk : k ∉ ks := (List.nodup_cons.mp hnd).1
    have hnd2 := (List.nodup_cons.mp hnd).2
    rw [List.map_cons, List.sum_cons, ih hnd2]
    have hcongr : entries.countP (fun e => (k :: ks).contains (entryKey e)) =
        entries.countP (fun e => (entryKey e == k) || ks.contains (entryKey e)) := by
      apply List.countP_congr
      intro e he
      rw [List.contains_cons]
    rw [hcongr, countP_or_disjoint]
    intro e he
    rintro ⟨h1, h2⟩
    rw [beq_iff_eq] at h1
    have h3 : entryKey e ∈ ks := by simpa using h2
    exact hk (h1 ▸ h3)

lemma countP_not_complement (l : List Entry) (p : Entry → Bool) :
    l.countP p + l.countP (fun e => !(p e)) = l.length := by
  induction l with
  | nil => rfl
  | cons e es ih =>
    rw [List.countP_cons, List.countP_cons, List.length_cons]
    cases hp : p e <;> simp [hp] <;> omega

lemma tokenCount_buildCountMap (entries : List Entry) (t : ProcessedToken)
    (hreal : ∃ e ∈ entries, entryKey e = lowerStr t.normalized) :
    tokenCount (buildCountMap entries) t =
      entries.countP (fun e => entryKey e == lowerStr t.normalized) := by
  unfold tokenCount
  rw [buildCountMap_eq_countP]
  obtain ⟨e, he, hk⟩ := hreal
  have hpos : 0 < entries.countP (fun e => entryKey e == lowerStr t.normalized) :=
    List.countP_pos.mpr ⟨e, he, by simp [hk]⟩
  rw [if_neg (by simp only [beq_iff_eq]; omega)]

lemma contains_map_any (f : ProcessedToken → Str) (x : Str) :
    ∀ ts : List ProcessedToken,
      ((ts.map f).contains x) = ts.any (fun t => x == f t) := by
  intro ts
  induction ts with
  | nil => rfl
  | cons t ts ih => rw [List.map_cons, List.contains_cons, List.any_cons, ih]

lemma contains_filter_map_any (p : ProcessedToken → Bool) (f : ProcessedToken → Str)
    (x : Str) :
    ∀ ts : List ProcessedToken,
      (((ts.filter p).map f).contains x) = ts.any (fun t => p t && (x == f t)) := by
  intro ts
  induction ts with
  | nil => rfl
  | cons t ts ih =>
    rw [List.filter_cons, List.any_cons]
    split
    · next hp =>
      rw [List.map_cons, List.contains_cons, ih, hp]
      simp
    · next hp =>
      rw [ih]
      have hp2 : p t = false := by
        cases hpt : p t
        · rfl
        · exact absurd hpt hp
      rw [hp2]
      simp

lemma map_tokenCount_eq (entries : List Entry) (ts : List ProcessedToken)
    (hreal : ∀ t ∈ ts, ∃ e ∈ entries, entryKey e = lowerStr t.normalized) :
    ts.map (fun t => tokenCount (buildCountMap entries) t) =
      ts.map (fun t => entries.countP (fun e => entryKey e == lowerStr t.normalized)) :=
  List.map_congr_left (fun t ht => tokenCount_buildCountMap entries t (hreal t ht))

lemma group_sum_eq (entries : List Entry) (tokens : List ProcessedToken)
    (hdist : (tokens.map (fun t => lowerStr t.normalized)).Nodup)
    (hreal : ∀ t ∈ tokens, ∃ e ∈ entries, entryKey e = lowerStr t.normalized)
    (canon : Str) :
    (((tokens.filter (fun t => lowerStr t.keyPhrase == canon)).map
        (fun t => tokenCount (buildCountMap entries) t)).sum)
      = entries.countP (fun e => tokens.any (fun t =>
          (lowerStr t.keyPhrase == canon) && (entryKey e == lowerStr t.normalized))) := by
  have hsub : ∀ t ∈ tokens.filter (fun t => lowerStr t.keyPhrase == canon), t ∈ tokens :=
    fun t ht => List.mem_of_mem_filter ht
  rw [map_tokenCount_eq entries _ (fun t ht => hreal t (hsub t ht))]
  have hmm : ((tokens.filter (fun t => lowerStr t.keyPhrase == canon)).map
      (fun t => lowerStr t.normalized)).map
        (fun k => entries.countP (fun e => entryKey e == k)) =
      (tokens.filter (fun t => lowerStr t.keyPhrase == canon)).map
        (fun t => entries.countP (fun e => entryKey e == lowerStr t.normalized)) := by
    rw [List.map_map]
    rfl
  rw [← hmm]
  have hkeys : ((tokens.filter (fun t => lowerStr t.keyPhrase == canon)).map
      (fun t => lowerStr t.normalized)).Nodup :=
    List.Nodup.sublist (List.Sublist.map _ (List.filter_sublist tokens)) hdist
  rw [sum_countP_nodup_keys entries _ hkeys]
  apply List.countP_congr
  intro e he
  rw [contains_filter_map_any]

/-- C2 (amended as forced by the double-count counterexample): provided the
tokens carry pairwise-distinct normalized keys and every token's normalized
key is realized by at least one submission, each group's `totalCount` equals
the number of submissions whose resolved key phrase maps to that group's
canonical (counting each contributing submission exactly once), and the sum
of all groups' `totalCount` plus the number of unmatched submissions
(spam-filtered, empty, or normalization-mismatched, i.e. matching no token)
equals the total submission count. -/
theorem clusterByKeyPhrase_count_conservation (tokens : List ProcessedToken)
    (entries : List Entry)
    (hdist : (tokens.map (fun t => lowerStr t.normalized)).Nodup)
    (hreal : ∀ t ∈ tokens, ∃ e ∈ entries, entryKey e = lowerStr t.normalized) :
    (∀ g ∈ clusterByKeyPhrase tokens (buildCountMap entries) entries,
        g.totalCount = entries.countP (fun e => tokens.any (fun t =>
          (lowerStr t.keyPhrase == g.canonical) &&
            (entryKey e == lowerStr t.normalized)))) ∧
    sumTotal (clusterByKeyPhrase tokens (buildCountMap entries) entries) +
        entries.countP (fun e =>
          !(tokens.any (fun t => entryKey e == lowerStr t.normalized)))
      = entries.length := by
  constructor
  · intro g hg
    have hnodup := nodup_canons_clusterFold (buildCountMap entries)
      (textToEntry entries) tokens [] (by simp [canonsOf])
    have h1 := totalOf_of_mem_nodup _ g hnodup hg
    have h2 := totalOf_clusterFold (buildCountMap entries) (textToEntry entries)
      g.canonical tokens []
    rw [totalOf_nil] at h2
    have h3 : g.totalCount =
        (((tokens.filter (fun t => lowerStr t.keyPhrase == g.canonical)).map
          (fun t => tokenCount (buildCountMap entries) t)).sum) := by
      rw [← h1]
      rw [clusterByKeyPhrase] at *
      omega
    rw [h3, group_sum_eq entries tokens hdist hreal g.canonical]
  · have h2 := sumTotal_clusterFold (buildCountMap entries) (textToEntry entries)
      tokens []
    rw [sumTotal_nil] at h2
    rw [clusterByKeyPhrase, h2, map_tokenCount_eq entries tokens hreal]
    have hmm : (tokens.map (fun t => lowerStr t.normalized)).map
        (fun k => entries.countP (fun e => entryKey e == k)) =
        tokens.map (fun t => entries.countP (fun e => entryKey e == lowerStr t.normalized)) := by
      rw [List.map_map]
      rfl
    rw [← hmm, sum_countP_nodup_keys entries _ hdist]
    have hcongr : entries.countP (fun e =>
        (tokens.map (fun t => lowerStr t.normalized)).contains (entryKey e)) =
        entries.countP (fun e => tokens.any (fun t =>
          entryKey e == lowerStr t.normalized)) := by
      apply List.countP_congr
      intro e he
      rw [contains_map_any]
    rw [hcongr, zero_add]
    exact countP_not_complement entries _

/-- C2 (counterexample): two case-variant unique texts normalize to the same
key; each of the two tokens adds the full per-key submission count (2) to the
single group's `totalCount`, which ends at 4 although only 2 submissions
exist — `totalCount` does not equal the number of contributing submissions,
and the sum of totals (4) cannot be completed to the submission count (2). -/
theorem clusterByKeyPhrase_double_count :
    ((clusterByKeyPhrase [loveToken1, loveToken2] (buildCountMap loveEntries)
        loveEntries).map (fun g => g.totalCount)) = [4] ∧
    loveEntries.length = 2 ∧
    loveEntries.countP (fun e => [loveToken1, loveToken2].any (fun t =>
      (lowerStr t.keyPhrase == ("love").toList) &&
        (entryKey e == lowerStr t.normalized))) = 2 ∧
    (4 : ℕ) ≠ 2 := by decide

/-- Witness for C2: a single token with key "love" over the two submissions;
the group books exactly the 2 contributing submissions and conservation
holds. -/
theorem clusterByKeyPhrase_count_conservation_witness :
    (([loveToken1].map (fun t => lowerStr t.normalized)).Nodup ∧
      (∀ t ∈ [loveToken1], ∃ e ∈ loveEntries, entryKey e = lowerStr t.normalized)) ∧
    sumTotal (clusterByKeyPhrase [loveToken1] (buildCountMap loveEntries) loveEntries) +
        loveEntries.countP (fun e =>
          !([loveToken1].any (fun t => entryKey e == lowerStr t.normalized)))
      = loveEntries.length :=
  ⟨⟨by decide, by decide⟩,
   (clusterByKeyPhrase_count_conservation [loveToken1] loveEntries
     (by decide) (by decide)).2⟩

end WordCloud
